import Mathlib

/-!
Verification of the Trolley asset-curation pipeline.

Shallow embedding of the cost ledger, review client, generation client and
refinement loop of `tools/asset-pipeline.js`, and of the pixel segmentation
algorithm (background detection, flood fill, alpha assignment, edge
smoothing) of the background-removal script.  JavaScript numbers are
modelled as exact rationals, byte buffers as functions `ℕ → ℕ`, JS `Set`s
as `Finset`s, and the two external services as explicit outcome parameters.
-/

namespace Trolley

/-! ## Cost ledger (asset-pipeline.js, COSTS / trackCost / checkBudget) -/

/-- The `COSTS` lookup table together with the `|| 0` fallback used by
`trackCost`; `checkBudget` receives the same looked-up value (JS passes
`undefined` for an unknown key, which the default parameter turns into 0). -/
def costLookup (key : String) : ℚ :=
  if key = "dall-e-3-hd" then 8/100
  else if key = "dall-e-3-standard" then 4/100
  else if key = "gpt-4o-vision" then 2/100
  else 0

/-- The two module-level mutable counters `sessionCost` and `costLimit`. -/
structure Ledger where
  sessionCost : ℚ
  costLimit : ℚ
  deriving DecidableEq

/-- Model of `checkBudget(estimatedCost)`: false iff `sessionCost + estimatedCost > costLimit`. -/
def checkBudget (st : Ledger) (estimatedCost : ℚ) : Bool :=
  !(decide (st.sessionCost + estimatedCost > st.costLimit))

/-- Model of `trackCost(type)`: adds the looked-up cost to `sessionCost`. -/
def trackCost (st : Ledger) (key : String) : Ledger :=
  { st with sessionCost := st.sessionCost + costLookup key }

/-- Audit record of one billed call site. -/
structure CallRecord where
  cost : ℚ
  attempted : Bool
  committed : Bool
  spentBefore : ℚ

/-- One billed call site as it appears in `generateAsset` and `reviewAsset`:
`checkBudget` with the call's cost key; if it passes, the external call is
attempted, and `trackCost` commits the same key's cost only when the call
succeeds. -/
def billedCall (st : Ledger) (key : String) (providerOk : Bool) :
    Ledger × CallRecord :=
  if checkBudget st (costLookup key) then
    if providerOk then
      (trackCost st key, ⟨costLookup key, true, true, st.sessionCost⟩)
    else
      (st, ⟨costLookup key, true, false, st.sessionCost⟩)
  else
    (st, ⟨costLookup key, false, false, st.sessionCost⟩)

/-- A session: a sequence of billed call sites, each with its cost key and
the success of the external provider call. -/
def runCalls (st : Ledger) : List (String × Bool) → Ledger × List CallRecord
  | [] => (st, [])
  | (key, ok) :: rest =>
    let step := billedCall st key ok
    let tail := runCalls step.1 rest
    (tail.1, step.2 :: tail.2)

/-- Sum of unit costs of the calls that actually committed. -/
def committedSum (recs : List CallRecord) : ℚ :=
  (recs.filter (·.committed)).foldr (fun r acc => r.cost + acc) 0

theorem costLookup_nonneg (key : String) : 0 ≤ costLookup key := by
  unfold costLookup
  split_ifs <;> norm_num

theorem runCalls_spent_add (events : List (String × Bool)) :
    ∀ st : Ledger,
      (runCalls st events).1.sessionCost =
        st.sessionCost + committedSum (runCalls st events).2 := by
  induction events with
  | nil => intro st; simp [runCalls, committedSum]
  | cons e rest ih =>
    intro st
    obtain ⟨key, ok⟩ := e
    simp only [runCalls]
    rw [ih]
    unfold billedCall
    split_ifs <;> simp [committedSum, trackCost] <;> ring

theorem runCalls_limit (events : List (String × Bool)) :
    ∀ st : Ledger, st.sessionCost ≤ st.costLimit →
      (runCalls st events).1.sessionCost ≤ (runCalls st events).1.costLimit ∧
      (runCalls st events).1.costLimit = st.costLimit := by
  induction events with
  | nil => intro st h; exact ⟨h, rfl⟩
  | cons e rest ih =>
    intro st h
    obtain ⟨key, ok⟩ := e
    simp only [runCalls]
    unfold billedCall checkBudget
    split_ifs with hb hok
    · have hle : st.sessionCost + costLookup key ≤ st.costLimit := by
        simpa [checkBudget, not_lt] using hb
      exact ih (trackCost st key) (by simpa [trackCost] using hle)
    · exact ih st h
    · exact ih st h

theorem runCalls_attempt_checked (events : List (String × Bool)) :
    ∀ st : Ledger, ∀ r ∈ (runCalls st events).2,
      (r.attempted = true → r.spentBefore + r.cost ≤ st.costLimit) ∧
      (r.committed = true → r.attempted = true) := by
  induction events with
  | nil => intro st r hr; simp [runCalls] at hr
  | cons e rest ih =>
    intro st r hr
    obtain ⟨key, ok⟩ := e
    simp only [runCalls, List.mem_cons] at hr
    rcases hr with hr | hr
    · subst hr
      unfold billedCall checkBudget
      split_ifs with hb hok <;>
        simp_all [checkBudget, not_lt, le_of_not_lt]
    · have hlim : ((billedCall st key ok).1).costLimit = st.costLimit := by
        unfold billedCall
        split_ifs <;> simp [trackCost]
      have := ih (billedCall st key ok).1 r hr
      rw [hlim] at this
      exact this

/-- C3: for any sequence of billed generation/review calls starting from a
fresh session (`sessionCost = 0`) with a nonnegative limit, cost is committed
only after a successful call, no call is attempted when `sessionCost` plus
its unit cost would exceed the limit, the running total never exceeds the
limit, and the final total equals the sum of unit costs of the calls that
committed. -/
theorem budget_invariant (limit : ℚ) (events : List (String × Bool))
    (hlimit : 0 ≤ limit) :
    (runCalls ⟨0, limit⟩ events).1.sessionCost ≤ limit ∧
    (runCalls ⟨0, limit⟩ events).1.sessionCost =
      committedSum (runCalls ⟨0, limit⟩ events).2 ∧
    (∀ r ∈ (runCalls ⟨0, limit⟩ events).2,
      r.attempted = true → r.spentBefore + r.cost ≤ limit) ∧
    (∀ r ∈ (runCalls ⟨0, limit⟩ events).2,
      r.committed = true → r.attempted = true) := by
  have hlim := runCalls_limit events ⟨0, limit⟩ (by simpa using hlimit)
  refine ⟨by simpa [hlim.2] using hlim.1, ?_, ?_, ?_⟩
  · simpa using runCalls_spent_add events ⟨0, limit⟩
  · intro r hr
    exact ((runCalls_attempt_checked events ⟨0, limit⟩ r hr).1)
  · intro r hr
    exact ((runCalls_attempt_checked events ⟨0, limit⟩ r hr).2)

/-- Witness for `budget_invariant` at the scenario of one hd generation and
one review against a limit of 0.10, followed by a blocked generation. -/
theorem budget_invariant_witness :
    (0 : ℚ) ≤ 1/10 ∧
    ((runCalls ⟨0, 1/10⟩ [("dall-e-3-hd", true), ("gpt-4o-vision", true),
        ("dall-e-3-hd", true)]).1.sessionCost ≤ 1/10 ∧
     (runCalls ⟨0, 1/10⟩ [("dall-e-3-hd", true), ("gpt-4o-vision", true),
        ("dall-e-3-hd", true)]).1.sessionCost =
       committedSum (runCalls ⟨0, 1/10⟩ [("dall-e-3-hd", true),
        ("gpt-4o-vision", true), ("dall-e-3-hd", true)]).2 ∧
     (∀ r ∈ (runCalls ⟨0, 1/10⟩ [("dall-e-3-hd", true),
        ("gpt-4o-vision", true), ("dall-e-3-hd", true)]).2,
       r.attempted = true → r.spentBefore + r.cost ≤ 1/10) ∧
     (∀ r ∈ (runCalls ⟨0, 1/10⟩ [("dall-e-3-hd", true),
        ("gpt-4o-vision", true), ("dall-e-3-hd", true)]).2,
       r.committed = true → r.attempted = true)) :=
  ⟨by norm_num,
   budget_invariant (1/10)
     [("dall-e-3-hd", true), ("gpt-4o-vision", true), ("dall-e-3-hd", true)]
     (by norm_num)⟩

/-! ## Review client (asset-pipeline.js, reviewAsset) -/

/-- A parsed judgment object, as produced by `JSON.parse` on the payload
matched out of the service's free-form response: the fields of the parsed
object that the pipeline reads.  `passed` is the JS truthiness of the
`passed` field (absent means false); `regenerationPrompt` is absent or a
string. -/
structure Judgment where
  overallScore : ℚ
  passed : Bool
  regenerationPrompt : Option String
  deriving DecidableEq

/-- The review object held in the `review` variable after the parse step,
either the parsed judgment verbatim or the parse-failure fallback.
`parseError` models the `parseError: true` flag of the fallback (absent,
hence false, on the success path). -/
structure Review where
  overallScore : ℚ
  passed : Bool
  regenerationPrompt : Option String
  parseError : Bool
  deriving DecidableEq

/-- The parse step of `reviewAsset` (lines 609-625): a successfully parsed
judgment is used verbatim; if no JSON payload is found or parsing throws,
the fallback `{overallScore: 5, passed: false, parseError: true}` is built
instead of propagating the error. -/
def parseReview : Option Judgment → Review
  | some j => ⟨j.overallScore, j.passed, j.regenerationPrompt, false⟩
  | none => ⟨5, false, none, true⟩

/-- Result of one `reviewAsset` call. -/
inductive ReviewCallResult where
  | failure (error : String)
  | success (review : Review)
  deriving DecidableEq

/-- Model of `reviewAsset`: budget gate with the `gpt-4o-vision` cost, then the
service call (whose outcome is a thrown error or a response whose parse
attempt is `some` judgment or `none`), cost committed after the call
returns, then the parse step.  A parse failure still yields a success
result. -/
def reviewAsset (st : Ledger) (apiOutcome : Except String (Option Judgment)) :
    Ledger × ReviewCallResult :=
  if !checkBudget st (costLookup "gpt-4o-vision") then
    (st, .failure "Budget limit reached")
  else
    match apiOutcome with
    | .error e => (st, .failure e)
    | .ok parsed =>
        (trackCost st "gpt-4o-vision", .success (parseReview parsed))

/-- C1 counterexample: a successfully parsed judgment whose service-supplied
`passed` is false despite `overallScore = 9 ≥ 7`.  The resulting review keeps
`passed = false`, so `passed` is not recomputed locally as
`overallScore >= 7`. -/
theorem passed_not_recomputed_counterexample :
    (reviewAsset ⟨0, 5⟩ (.ok (some ⟨9, false, none⟩))).2 =
      .success ⟨9, false, none, false⟩ ∧
    ((9 : ℚ) ≥ 7) ∧
    (parseReview (some ⟨9, false, none⟩)).passed = false := by
  refine ⟨?_, by norm_num, rfl⟩
  simp [reviewAsset, checkBudget, costLookup, parseReview]
  norm_num

/-- C1 amended: for every review call that successfully parses a judgment,
the resulting review carries the judgment's own `passed`, `overallScore`
and `regenerationPrompt` fields verbatim; the `>= 7` threshold is requested
from the service in the prompt but never enforced by the controller. -/
theorem passed_taken_verbatim (st : Ledger) (j : Judgment)
    (hb : checkBudget st (costLookup "gpt-4o-vision") = true) :
    (reviewAsset st (.ok (some j))).2 =
      .success ⟨j.overallScore, j.passed, j.regenerationPrompt, false⟩ := by
  simp [reviewAsset, hb, parseReview]

/-- Witness for `passed_taken_verbatim` at a concrete ledger and judgment. -/
theorem passed_taken_verbatim_witness :
    checkBudget ⟨0, 5⟩ (costLookup "gpt-4o-vision") = true ∧
    (reviewAsset ⟨0, 5⟩ (.ok (some ⟨8, true, some "better"⟩))).2 =
      .success ⟨8, true, some "better", false⟩ :=
  ⟨by simp [checkBudget, costLookup]; norm_num,
   passed_taken_verbatim ⟨0, 5⟩ ⟨8, true, some "better"⟩
     (by simp [checkBudget, costLookup]; norm_num)⟩

/-- C5: a review-service response from which no JSON payload can be
extracted or parsed yields a success result (not an error) carrying the
malformed-marked fallback review with `overallScore = 5` and
`passed = false`. -/
theorem malformed_review_fallback (st : Ledger)
    (hb : checkBudget st (costLookup "gpt-4o-vision") = true) :
    (reviewAsset st (.ok none)).2 = .success ⟨5, false, none, true⟩ := by
  simp [reviewAsset, hb, parseReview]

/-- Witness for `malformed_review_fallback` at a concrete ledger. -/
theorem malformed_review_fallback_witness :
    checkBudget ⟨0, 5⟩ (costLookup "gpt-4o-vision") = true ∧
    (reviewAsset ⟨0, 5⟩ (.ok none)).2 = .success ⟨5, false, none, true⟩ :=
  ⟨by simp [checkBudget, costLookup]; norm_num,
   malformed_review_fallback ⟨0, 5⟩ (by simp [checkBudget, costLookup]; norm_num)⟩

/-! ## Generation client (asset-pipeline.js, generateAsset) -/

/-- Substring containment, JavaScript's `String.includes`. -/
def includes (s sub : String) : Bool :=
  decide (List.IsInfix sub.toList s.toList)

/-- Model of `needsBackgroundRemoval`: backgrounds (ids containing `bg` or
`background`) do not need removal, everything else does. -/
def needsBackgroundRemoval (assetId : String) : Bool :=
  !(includes assetId "bg") && !(includes assetId "background")

/-- The asset fields `generateAsset` reads. -/
structure GenAsset where
  id : String
  prompt : String
  negativePrompt : Option String
  deriving DecidableEq

/-- The options `generateAsset` reads: `rembg` is `some false` exactly when
`--no-rembg` was given (otherwise commander leaves it undefined), and
`quality` selects the cost key. -/
structure GenOptions where
  rembg : Option Bool
  quality : String
  deriving DecidableEq

/-- The object returned by `generateAsset`: `{success, path, revisedPrompt}`
on success, `{success: false, error}` on failure.  It has no field recording
the outcome of the background-removal step. -/
structure GenResult where
  success : Bool
  error : Option String
  path : Option String
  revisedPrompt : Option String
  deriving DecidableEq

/-- Model of `generateAsset`: budget gate with the quality's cost key, the provider
call (error or revised prompt; directory routing of the saved file is
elided, the saved path is represented by the asset id), cost committed on
success, then — when `options.rembg !== false` and the id needs removal —
`removeBackgroundWithRembg` is awaited with outcome `rembgOk` and its result
discarded.  Returns the new ledger, the result object, and whether the
removal step was invoked. -/
def generateAsset (st : Ledger) (asset : GenAsset) (opts : GenOptions)
    (provider : Except String String) (rembgOk : Bool) :
    Ledger × GenResult × Bool :=
  let c := costLookup ("dall-e-3-" ++ opts.quality)
  if !checkBudget st c then
    (st, ⟨false, some "Budget limit reached", none, none⟩, false)
  else
    match provider with
    | .error e => (st, ⟨false, some e, none, none⟩, false)
    | .ok revised =>
        let _ := rembgOk
        let invoked := (opts.rembg != some false) && needsBackgroundRemoval asset.id
        (trackCost st ("dall-e-3-" ++ opts.quality),
         ⟨true, none, some asset.id, some revised⟩, invoked)

/-- C9 counterexample: with `--no-rembg` a successful generation of an icon
asset never invokes background removal; and with removal enabled, the value
returned for a failed removal is identical to the one returned for a
successful removal — the result carries no diagnostic flag for the partial
success. -/
theorem generation_rembg_counterexample :
    (generateAsset ⟨0, 5⟩ ⟨"icon_star", "p", none⟩ ⟨some false, "hd"⟩
        (.ok "r") true).2.2 = false ∧
    generateAsset ⟨0, 5⟩ ⟨"icon_star", "p", none⟩ ⟨none, "hd"⟩ (.ok "r") false =
      generateAsset ⟨0, 5⟩ ⟨"icon_star", "p", none⟩ ⟨none, "hd"⟩ (.ok "r") true ∧
    (generateAsset ⟨0, 5⟩ ⟨"icon_star", "p", none⟩ ⟨none, "hd"⟩
        (.ok "r") false).2.1.success = true := by
  refine ⟨?_, rfl, ?_⟩ <;>
    · simp [generateAsset, checkBudget, costLookup]
      norm_num

/-- C9 amended: unless removal is disabled by the rembg option, a successful
generation of an asset whose id marks it as needing a transparent result
(id containing neither `bg` nor `background`) invokes background removal;
for background assets removal is never invoked; and the generation returns
a success result carrying the saved path that does not depend on the
removal outcome (no diagnostic flag distinguishes a failed removal). -/
theorem generation_rembg_policy (st : Ledger) (asset : GenAsset)
    (opts : GenOptions) (revised : String) (rembgOk : Bool)
    (hb : checkBudget st (costLookup ("dall-e-3-" ++ opts.quality)) = true) :
    ((generateAsset st asset opts (.ok revised) rembgOk).2.2 = true ↔
      (opts.rembg ≠ some false ∧ needsBackgroundRemoval asset.id = true)) ∧
    (needsBackgroundRemoval asset.id = false →
      (generateAsset st asset opts (.ok revised) rembgOk).2.2 = false) ∧
    (generateAsset st asset opts (.ok revised) rembgOk).2.1 =
      ⟨true, none, some asset.id, some revised⟩ ∧
    generateAsset st asset opts (.ok revised) rembgOk =
      generateAsset st asset opts (.ok revised) true := by
  refine ⟨?_, ?_, ?_, ?_⟩ <;>
    simp [generateAsset, hb, bne_iff_ne] <;>
    tauto

/-- Witness for `generation_rembg_policy` at a concrete icon asset. -/
theorem generation_rembg_policy_witness :
    checkBudget ⟨0, 5⟩ (costLookup ("dall-e-3-" ++ "hd")) = true ∧
    (((generateAsset ⟨0, 5⟩ ⟨"icon_star", "p", none⟩ ⟨none, "hd"⟩
          (.ok "r") false).2.2 = true ↔
        ((⟨none, "hd"⟩ : GenOptions).rembg ≠ some false ∧
          needsBackgroundRemoval "icon_star" = true)) ∧
      (needsBackgroundRemoval "icon_star" = false →
        (generateAsset ⟨0, 5⟩ ⟨"icon_star", "p", none⟩ ⟨none, "hd"⟩
          (.ok "r") false).2.2 = false) ∧
      (generateAsset ⟨0, 5⟩ ⟨"icon_star", "p", none⟩ ⟨none, "hd"⟩
          (.ok "r") false).2.1 = ⟨true, none, some "icon_star", some "r"⟩ ∧
      generateAsset ⟨0, 5⟩ ⟨"icon_star", "p", none⟩ ⟨none, "hd"⟩
          (.ok "r") false =
        generateAsset ⟨0, 5⟩ ⟨"icon_star", "p", none⟩ ⟨none, "hd"⟩
          (.ok "r") true) :=
  ⟨by simp [checkBudget, costLookup]; norm_num,
   generation_rembg_policy ⟨0, 5⟩ ⟨"icon_star", "p", none⟩ ⟨none, "hd"⟩
     "r" false (by simp [checkBudget, costLookup]; norm_num)⟩

/-! ## Refinement loop (asset-pipeline.js, pipelineCommand) -/

/-- JS truthiness of the `regenerationPrompt` field: absent and the empty
string are falsy. -/
def truthy : Option String → Bool
  | none => false
  | some s => !(s == "")

/-- The externally determined outcome of one generate/review cycle:
whether `generateAsset` succeeded, whether `reviewAsset` succeeded, and the
`passed` / `regenerationPrompt` fields of its review. -/
structure CycleOutcome where
  genOk : Bool
  reviewOk : Bool
  passed : Bool
  regenerationPrompt : Option String

/-- Terminal state of the per-asset loop. -/
inductive PipeStatus where
  | approved
  | genFailed
  | reviewFailed
  | exhausted
  deriving DecidableEq

/-- Audit record of one executed cycle: the prompt `generateAsset` was
called with, and the prompt held by `currentAsset` when `reviewAsset` ran
(`none` when generation failed before the review). -/
structure CycleRecord where
  promptAtGen : String
  promptAtReview : Option String
  deriving DecidableEq

/-- Result of the per-asset loop. -/
structure PipeResult where
  status : PipeStatus
  genCalls : ℕ
  reviewCalls : ℕ
  finalPrompt : String
  trace : List CycleRecord

/-- The prompt passed to the next cycle: replaced exactly in the
`!passed && iteration < maxIterations && regenerationPrompt` branch of
`pipelineCommand`, where `iteration` is the 1-based count `done + 1`. -/
def nextPromptOf (maxIterations done : ℕ) (prompt : String)
    (c : CycleOutcome) : String :=
  if decide (done + 1 < maxIterations) && truthy c.regenerationPrompt then
    c.regenerationPrompt.getD prompt
  else prompt

/-- The `while (!passed && iteration < maxIterations)` loop of
`pipelineCommand`, for one asset.  `done` counts the cycles already run
(the code's `iteration` before the increment), `fuel = maxIterations - done`
so the guard `iteration < maxIterations` is `fuel > 0`; `outcome i` is the
outcome of the (i+1)-th cycle. -/
def pipelineLoop (outcome : ℕ → CycleOutcome) (maxIterations : ℕ) :
    ℕ → ℕ → String → PipeResult
  | 0, _, prompt => ⟨.exhausted, 0, 0, prompt, []⟩
  | fuel + 1, done, prompt =>
    let c := outcome done
    if !c.genOk then
      ⟨.genFailed, 1, 0, prompt, [⟨prompt, none⟩]⟩
    else if !c.reviewOk then
      ⟨.reviewFailed, 1, 1, prompt, [⟨prompt, some prompt⟩]⟩
    else if c.passed then
      ⟨.approved, 1, 1, prompt, [⟨prompt, some prompt⟩]⟩
    else
      let r := pipelineLoop outcome maxIterations fuel (done + 1)
        (nextPromptOf maxIterations done prompt c)
      ⟨r.status, r.genCalls + 1, r.reviewCalls + 1, r.finalPrompt,
        ⟨prompt, some prompt⟩ :: r.trace⟩

/-- One asset's refinement run: the loop starting from the manifest prompt
with `iteration = 0`. -/
def pipelineRun (outcome : ℕ → CycleOutcome) (maxIterations : ℕ)
    (prompt : String) : PipeResult :=
  pipelineLoop outcome maxIterations maxIterations 0 prompt

/-- A cycle outcome that keeps the loop going: generation and review both
succeed and the review does not pass. -/
def continues (c : CycleOutcome) : Prop :=
  c.genOk = true ∧ c.reviewOk = true ∧ c.passed = false

theorem pipelineLoop_bounds (outcome : ℕ → CycleOutcome) (maxIterations : ℕ) :
    ∀ fuel done prompt,
      (pipelineLoop outcome maxIterations fuel done prompt).genCalls ≤ fuel ∧
      (pipelineLoop outcome maxIterations fuel done prompt).reviewCalls ≤
        (pipelineLoop outcome maxIterations fuel done prompt).genCalls ∧
      (pipelineLoop outcome maxIterations fuel done prompt).trace.length =
        (pipelineLoop outcome maxIterations fuel done prompt).genCalls ∧
      (∀ j, j + 1 < (pipelineLoop outcome maxIterations fuel done prompt).genCalls →
        continues (outcome (done + j))) := by
  intro fuel
  induction fuel with
  | zero =>
    intro done prompt
    simp only [pipelineLoop]
    exact ⟨Nat.le_refl 0, Nat.le_refl 0, rfl, by intro j hj; simp at hj⟩
  | succ fuel ih =>
    intro done prompt
    simp only [pipelineLoop]
    split_ifs with h1 h2 h3
    · exact ⟨by simp, by simp, rfl, by intro j hj; simp at hj⟩
    · exact ⟨by simp, by simp, rfl, by intro j hj; simp at hj⟩
    · exact ⟨by simp, by simp, rfl, by intro j hj; simp at hj⟩
    · obtain ⟨hg, hr, ht, hc⟩ := ih (done + 1)
        (nextPromptOf maxIterations done prompt (outcome done))
      refine ⟨by simpa using Nat.add_le_add_right hg 1, by simpa using hr,
        by simpa using ht, ?_⟩
      intro j hj
      simp only [] at hj
      match j with
      | 0 =>
        simp only [Nat.add_zero]
        refine ⟨by simpa using h1, by simpa using h2, by simpa using h3⟩
      | j + 1 =>
        have := hc j (by omega)
        simpa [Nat.add_assoc, Nat.add_comm 1 j, Nat.add_left_comm] using this

/-- C4: for any asset and any sequence of generation/review outcomes, the
loop with `maxIterations = N` makes at most `N` generate calls and at most
as many review calls; and every executed cycle except possibly the last is
one in which generation succeeded, the review call succeeded, and the review
did not pass — so the loop stops immediately after a passed review, a failed
generation, or a failed review call. -/
theorem pipeline_terminates (outcome : ℕ → CycleOutcome) (maxIterations : ℕ)
    (prompt : String) :
    (pipelineRun outcome maxIterations prompt).genCalls ≤ maxIterations ∧
    (pipelineRun outcome maxIterations prompt).reviewCalls ≤
      (pipelineRun outcome maxIterations prompt).genCalls ∧
    (∀ j, j + 1 < (pipelineRun outcome maxIterations prompt).genCalls →
      continues (outcome j)) := by
  obtain ⟨hg, hr, _, hc⟩ := pipelineLoop_bounds outcome maxIterations
    maxIterations 0 prompt
  exact ⟨hg, hr, fun j hj => by simpa using hc j hj⟩

/-- Witness for `pipeline_terminates`: a run whose first review scores low
and whose second passes performs exactly two cycles, and its non-final
cycle kept going. -/
theorem pipeline_terminates_witness :
    ((pipelineRun (fun i => if i = 0 then ⟨true, true, false, some "better"⟩
        else ⟨true, true, true, none⟩) 3 "p").genCalls ≤ 3 ∧
     (pipelineRun (fun i => if i = 0 then ⟨true, true, false, some "better"⟩
        else ⟨true, true, true, none⟩) 3 "p").reviewCalls ≤
       (pipelineRun (fun i => if i = 0 then ⟨true, true, false, some "better"⟩
          else ⟨true, true, true, none⟩) 3 "p").genCalls ∧
     (∀ j, j + 1 < (pipelineRun
          (fun i => if i = 0 then ⟨true, true, false, some "better"⟩
           else ⟨true, true, true, none⟩) 3 "p").genCalls →
        continues ((fun i =>
          if i = 0 then (⟨true, true, false, some "better"⟩ : CycleOutcome)
          else ⟨true, true, true, none⟩) j))) ∧
    (pipelineRun (fun i => if i = 0 then ⟨true, true, false, some "better"⟩
        else ⟨true, true, true, none⟩) 3 "p").genCalls = 2 :=
  ⟨pipeline_terminates
     (fun i => if i = 0 then ⟨true, true, false, some "better"⟩
      else ⟨true, true, true, none⟩) 3 "p",
   by decide⟩

/-- Default record used for positional access into the trace. -/
def emptyRec : CycleRecord := ⟨"", none⟩

theorem pipelineLoop_prompts (outcome : ℕ → CycleOutcome) (maxIterations : ℕ) :
    ∀ fuel done prompt, fuel + done = maxIterations →
      (∀ rec ∈ (pipelineLoop outcome maxIterations fuel done prompt).trace,
        rec.promptAtReview = none ∨
        rec.promptAtReview = some rec.promptAtGen) ∧
      (0 < (pipelineLoop outcome maxIterations fuel done prompt).trace.length →
        ((pipelineLoop outcome maxIterations fuel done prompt).trace.getD 0
          emptyRec).promptAtGen = prompt) ∧
      (∀ j, j + 1 <
          (pipelineLoop outcome maxIterations fuel done prompt).trace.length →
        ((pipelineLoop outcome maxIterations fuel done prompt).trace.getD (j + 1)
            emptyRec).promptAtGen =
          (if truthy (outcome (done + j)).regenerationPrompt then
            (outcome (done + j)).regenerationPrompt.getD
              (((pipelineLoop outcome maxIterations fuel done prompt).trace.getD j
                emptyRec).promptAtGen)
          else
            (((pipelineLoop outcome maxIterations fuel done prompt).trace.getD j
              emptyRec).promptAtGen))) := by
  intro fuel
  induction fuel with
  | zero =>
    intro done prompt hfd
    simp only [pipelineLoop]
    refine ⟨by simp, by simp, ?_⟩
    intro j hj
    simp at hj
  | succ fuel ih =>
    intro done prompt hfd
    simp only [pipelineLoop]
    split_ifs with h1 h2 h3
    · refine ⟨?_, fun _ => rfl, ?_⟩
      · intro rec hrec
        simp only [List.mem_singleton] at hrec
        subst hrec; exact Or.inl rfl
      · intro j hj; simp at hj
    · refine ⟨?_, fun _ => rfl, ?_⟩
      · intro rec hrec
        simp only [List.mem_singleton] at hrec
        subst hrec; exact Or.inr rfl
      · intro j hj; simp at hj
    · refine ⟨?_, fun _ => rfl, ?_⟩
      · intro rec hrec
        simp only [List.mem_singleton] at hrec
        subst hrec; exact Or.inr rfl
      · intro j hj; simp at hj
    · obtain ⟨hmid, hhead, hstep⟩ := ih (done + 1)
        (nextPromptOf maxIterations done prompt (outcome done)) (by omega)
      obtain ⟨hg, _, ht, _⟩ := pipelineLoop_bounds outcome maxIterations fuel
        (done + 1) (nextPromptOf maxIterations done prompt (outcome done))
      refine ⟨?_, fun _ => rfl, ?_⟩
      · intro rec hrec
        rcases List.mem_cons.mp hrec with h | h
        · subst h; exact Or.inr rfl
        · exact hmid rec h
      · intro j hj
        simp only [List.length_cons] at hj
        match j with
        | 0 =>
          have hpos : 0 < (pipelineLoop outcome maxIterations fuel (done + 1)
              (nextPromptOf maxIterations done prompt (outcome done))).trace.length := by
            omega
          have hlt : done + 1 < maxIterations := by omega
          simp only [List.getD_cons_succ, List.getD_cons_zero, Nat.add_zero]
          rw [hhead hpos]
          unfold nextPromptOf
          simp [decide_eq_true hlt]
        | j + 1 =>
          have := hstep j (by omega)
          simp only [List.getD_cons_succ]
          simpa [Nat.add_assoc, Nat.add_comm 1 j, Nat.add_left_comm] using this

/-- C7: in the refinement loop, the prompt generation uses in cycle `j+1`
equals the previous cycle's prompt unless that cycle's review supplied a
truthy `regenerationPrompt`, in which case it is replaced by it; whenever a
next cycle runs, the previous review did not pass and iterations remained
below `maxIterations`; and within one cycle the prompt seen by the review
equals the prompt used for generation (no mid-cycle mutation). -/
theorem prompt_mutation_policy (outcome : ℕ → CycleOutcome)
    (maxIterations : ℕ) (prompt : String) :
    (∀ rec ∈ (pipelineRun outcome maxIterations prompt).trace,
      rec.promptAtReview = none ∨ rec.promptAtReview = some rec.promptAtGen) ∧
    (∀ j, j + 1 < (pipelineRun outcome maxIterations prompt).trace.length →
      (outcome j).passed = false ∧ j + 1 < maxIterations ∧
      ((pipelineRun outcome maxIterations prompt).trace.getD (j + 1)
          emptyRec).promptAtGen =
        (if truthy (outcome j).regenerationPrompt then
          (outcome j).regenerationPrompt.getD
            (((pipelineRun outcome maxIterations prompt).trace.getD j
              emptyRec).promptAtGen)
        else
          (((pipelineRun outcome maxIterations prompt).trace.getD j
            emptyRec).promptAtGen))) := by
  obtain ⟨hmid, _, hstep⟩ := pipelineLoop_prompts outcome maxIterations
    maxIterations 0 prompt (by omega)
  obtain ⟨hg, _, ht, hc⟩ := pipelineLoop_bounds outcome maxIterations
    maxIterations 0 prompt
  refine ⟨hmid, ?_⟩
  intro j hj
  have hjg : j + 1 <
      (pipelineLoop outcome maxIterations maxIterations 0 prompt).genCalls := by
    rw [← ht]
    simpa [pipelineRun] using hj
  have hcont := hc j (by simpa using hjg)
  refine ⟨by simpa using hcont.2.2, by omega, by simpa using hstep j hj⟩

/-- Witness for `prompt_mutation_policy`: with a first failed review that
suggests "better", the second generation uses "better"; the inner indexed
statement is discharged at cycle 0 of a concrete two-cycle run. -/
theorem prompt_mutation_policy_witness :
    ((∀ rec ∈ (pipelineRun (fun i =>
          if i = 0 then ⟨true, true, false, some "better"⟩
          else ⟨true, true, true, none⟩) 3 "p").trace,
        rec.promptAtReview = none ∨
        rec.promptAtReview = some rec.promptAtGen) ∧
     (∀ j, j + 1 < (pipelineRun (fun i =>
          if i = 0 then ⟨true, true, false, some "better"⟩
          else ⟨true, true, true, none⟩) 3 "p").trace.length →
        ((fun i => if i = 0 then (⟨true, true, false, some "better"⟩ : CycleOutcome)
          else ⟨true, true, true, none⟩) j).passed = false ∧ j + 1 < 3 ∧
        ((pipelineRun (fun i =>
            if i = 0 then ⟨true, true, false, some "better"⟩
            else ⟨true, true, true, none⟩) 3 "p").trace.getD (j + 1)
            emptyRec).promptAtGen =
          (if truthy ((fun i =>
              if i = 0 then (⟨true, true, false, some "better"⟩ : CycleOutcome)
              else ⟨true, true, true, none⟩) j).regenerationPrompt then
            ((fun i =>
              if i = 0 then (⟨true, true, false, some "better"⟩ : CycleOutcome)
              else ⟨true, true, true, none⟩) j).regenerationPrompt.getD
              (((pipelineRun (fun i =>
                  if i = 0 then ⟨true, true, false, some "better"⟩
                  else ⟨true, true, true, none⟩) 3 "p").trace.getD j
                emptyRec).promptAtGen)
          else
            (((pipelineRun (fun i =>
                if i = 0 then ⟨true, true, false, some "better"⟩
                else ⟨true, true, true, none⟩) 3 "p").trace.getD j
              emptyRec).promptAtGen)))) ∧
    ((pipelineRun (fun i => if i = 0 then ⟨true, true, false, some "better"⟩
        else ⟨true, true, true, none⟩) 3 "p").trace.getD 1
        emptyRec).promptAtGen = "better" :=
  ⟨prompt_mutation_policy (fun i =>
      if i = 0 then ⟨true, true, false, some "better"⟩
      else ⟨true, true, true, none⟩) 3 "p",
   by decide⟩

/-! ## Image model and background detection (remove-background script) -/

/-- A raw bitmap as the sharp library hands it over: dimensions, channel
count, and the flat byte buffer. -/
structure Img where
  width : ℕ
  height : ℕ
  channels : ℕ
  data : ℕ → ℕ

/-- An RGB triple over exact rationals (corner averages are fractional). -/
structure RGBq where
  r : ℚ
  g : ℚ
  b : ℚ
  deriving DecidableEq

/-- The sample points of `detectBackgroundColor`: one point at offset 5
inside each corner (and nothing else). -/
def samplePoints (img : Img) : List (ℕ × ℕ) :=
  [(5, 5), (img.width - 5 - 1, 5), (5, img.height - 5 - 1),
   (img.width - 5 - 1, img.height - 5 - 1)]

/-- Read the RGB bytes at a point, via the flat index
`(y * width + x) * channels`. -/
def sampleAt (img : Img) (p : ℕ × ℕ) : RGBq :=
  ⟨img.data ((p.2 * img.width + p.1) * img.channels),
   img.data ((p.2 * img.width + p.1) * img.channels + 1),
   img.data ((p.2 * img.width + p.1) * img.channels + 2)⟩

/-- The corner samples the detector aggregates. -/
def samples (img : Img) : List RGBq :=
  (samplePoints img).map (sampleAt img)

/-- Per-channel mean of a sample list. -/
def meanColor (l : List RGBq) : RGBq :=
  ⟨(l.map (·.r)).sum / l.length,
   (l.map (·.g)).sum / l.length,
   (l.map (·.b)).sum / l.length⟩

/-- The detector's "variance": mean over the samples of the summed
per-channel absolute deviations from the mean color. -/
def meanDeviation (l : List RGBq) : ℚ :=
  (l.map (fun s =>
    |s.r - (meanColor l).r| + |s.g - (meanColor l).g| +
      |s.b - (meanColor l).b|)).sum / l.length

/-- Mean brightness of a color. -/
def brightnessOf (c : RGBq) : ℚ := (c.r + c.g + c.b) / 3

/-- Background classification. -/
inductive BgType where
  | white
  | black
  | unknown
  deriving DecidableEq

/-- The record returned by `detectBackgroundColor`. -/
structure BgInfo where
  color : RGBq
  type : BgType
  variance : ℚ
  deriving DecidableEq

/-- The classification applied to a sample list: indeterminate when the
deviation exceeds 30, else white above brightness 230, black below 25,
indeterminate otherwise. -/
def classifyBackground (l : List RGBq) : BgInfo :=
  if meanDeviation l > 30 then ⟨meanColor l, .unknown, meanDeviation l⟩
  else if brightnessOf (meanColor l) > 230 then
    ⟨meanColor l, .white, meanDeviation l⟩
  else if brightnessOf (meanColor l) < 25 then
    ⟨meanColor l, .black, meanDeviation l⟩
  else ⟨meanColor l, .unknown, meanDeviation l⟩

/-- Model of `detectBackgroundColor`: classify the four offset-corner samples. -/
def detectBackgroundColor (img : Img) : BgInfo :=
  classifyBackground (samples img)

/-- Stated from the claim's words, for comparison with the source: the same
detection but sampling the four offset points "plus the corner pixels". -/
def detectBackgroundColorSpec (img : Img) : BgInfo :=
  classifyBackground
    (((samplePoints img) ++
      [(0, 0), (img.width - 1, 0), (0, img.height - 1),
       (img.width - 1, img.height - 1)]).map (sampleAt img))

/-- Outcome of the detection phase of `removeBackground`: skip the file
unmodified, or proceed with the detected color and a tolerance. -/
inductive RemoveDecision where
  | skip
  | proceed (bg : RGBq) (tolerance : ℚ)
  deriving DecidableEq

/-- The detection/skip/tolerance phase of `removeBackground` (before any
pixel is touched): an unknown background without `--force` returns the
`Unknown background` failure, otherwise the white tolerance 45 or the
black/forced tolerance 15 is chosen. -/
def removeBackgroundDecision (img : Img) (force : Bool) : RemoveDecision :=
  if (detectBackgroundColor img).type = BgType.unknown ∧ force = false then
    .skip
  else
    .proceed (detectBackgroundColor img).color
      (if (detectBackgroundColor img).type = BgType.white then 45 else 15)

/-- A 12 x 12 all-white 3-channel bitmap except that the top-left corner
pixel is black.  The four offset-5 detector samples never see the black
corner. -/
def imgCorner : Img :=
  ⟨12, 12, 3, fun i => if i < 3 then 0 else 255⟩

/-- C6 counterexample: on `imgCorner` the source's detector (which samples
only the four offset points) reports a white background with zero variance,
while the detection procedure described by the claim (offset points plus
the literal corner pixels) reports indeterminate — so detection does not
sample the corner pixels. -/
theorem corner_sampling_counterexample :
    (detectBackgroundColor imgCorner).type = BgType.white ∧
    (detectBackgroundColorSpec imgCorner).type = BgType.unknown := by
  constructor
  · show (classifyBackground (samples imgCorner)).type = BgType.white
    have hs : samples imgCorner = [⟨255, 255, 255⟩, ⟨255, 255, 255⟩,
        ⟨255, 255, 255⟩, ⟨255, 255, 255⟩] := by
      simp [samples, samplePoints, sampleAt, imgCorner]
    rw [hs]
    simp only [classifyBackground, meanDeviation, meanColor, brightnessOf]
    norm_num
  · show (classifyBackground _).type = BgType.unknown
    have hs : (((samplePoints imgCorner) ++
        [(0, 0), (imgCorner.width - 1, 0), (0, imgCorner.height - 1),
         (imgCorner.width - 1, imgCorner.height - 1)]).map (sampleAt imgCorner)) =
        [⟨255, 255, 255⟩, ⟨255, 255, 255⟩, ⟨255, 255, 255⟩, ⟨255, 255, 255⟩,
         ⟨0, 0, 0⟩, ⟨255, 255, 255⟩, ⟨255, 255, 255⟩, ⟨255, 255, 255⟩] := by
      simp [samplePoints, sampleAt, imgCorner]
    rw [hs]
    simp only [classifyBackground, meanDeviation, meanColor, brightnessOf]
    norm_num

/-- C6 amended: detection aggregates exactly the four offset-5 corner
samples — it is insensitive to every other pixel, including the literal
corner pixels; the classification uses the deviation threshold 30 and the
brightness thresholds 230 and 25; and `removeBackground` skips the image
unmodified exactly when the classification is indeterminate and the caller
did not force processing, otherwise proceeding with the detected color and
the white (45) or black (15) tolerance. -/
theorem background_detection_policy (img : Img) (force : Bool) :
    (removeBackgroundDecision img force = .skip ↔
      ((detectBackgroundColor img).type = BgType.unknown ∧ force = false)) ∧
    ((detectBackgroundColor img).type =
      (if meanDeviation (samples img) > 30 then BgType.unknown
       else if brightnessOf (meanColor (samples img)) > 230 then BgType.white
       else if brightnessOf (meanColor (samples img)) < 25 then BgType.black
       else BgType.unknown)) ∧
    (∀ bg tol, removeBackgroundDecision img force = .proceed bg tol →
      bg = (detectBackgroundColor img).color ∧
      tol = (if (detectBackgroundColor img).type = BgType.white
             then (45 : ℚ) else 15)) ∧
    (∀ img' : Img, img'.width = img.width → img'.height = img.height →
      (∀ p ∈ samplePoints img, sampleAt img' p = sampleAt img p) →
      detectBackgroundColor img' = detectBackgroundColor img) := by
  refine ⟨?_, ?_, ?_, ?_⟩
  · unfold removeBackgroundDecision
    split_ifs with h
    · simpa using h
    · simpa using h
  · unfold detectBackgroundColor classifyBackground
    split_ifs <;> rfl
  · intro bg tol hpt
    unfold removeBackgroundDecision at hpt
    by_cases h : ((detectBackgroundColor img).type = BgType.unknown ∧
        force = false)
    · rw [if_pos h] at hpt
      exact absurd hpt (by simp)
    · rw [if_neg h] at hpt
      have h2 := RemoveDecision.proceed.inj hpt
      exact ⟨h2.1.symm, h2.2.symm⟩
  · intro img' hw hh hs
    have hp : samplePoints img' = samplePoints img := by
      simp [samplePoints, hw, hh]
    have hsam : samples img' = samples img := by
      unfold samples
      rw [hp]
      exact List.map_congr_left hs
    unfold detectBackgroundColor
    rw [hsam]

/-- A 12 x 12 uniform mid-gray bitmap: brightness 128 classifies as
indeterminate. -/
def imgGray : Img :=
  ⟨12, 12, 3, fun _ => 128⟩

/-- Witness for `background_detection_policy`: on the uniform gray image
the classification is indeterminate, so by the skip-iff conjunct the
unforced run skips. -/
theorem background_detection_policy_witness :
    ((removeBackgroundDecision imgGray false = .skip ↔
        ((detectBackgroundColor imgGray).type = BgType.unknown ∧
          false = false)) ∧
      ((detectBackgroundColor imgGray).type =
        (if meanDeviation (samples imgGray) > 30 then BgType.unknown
         else if brightnessOf (meanColor (samples imgGray)) > 230 then
           BgType.white
         else if brightnessOf (meanColor (samples imgGray)) < 25 then
           BgType.black
         else BgType.unknown)) ∧
      (∀ bg tol, removeBackgroundDecision imgGray false = .proceed bg tol →
        bg = (detectBackgroundColor imgGray).color ∧
        tol = (if (detectBackgroundColor imgGray).type = BgType.white
               then (45 : ℚ) else 15)) ∧
      (∀ img' : Img, img'.width = imgGray.width →
        img'.height = imgGray.height →
        (∀ p ∈ samplePoints imgGray, sampleAt img' p = sampleAt imgGray p) →
        detectBackgroundColor img' = detectBackgroundColor imgGray)) ∧
    (detectBackgroundColor imgGray).type = BgType.unknown :=
  ⟨background_detection_policy imgGray false, by
    show (classifyBackground (samples imgGray)).type = BgType.unknown
    have hs : samples imgGray = [⟨128, 128, 128⟩, ⟨128, 128, 128⟩,
        ⟨128, 128, 128⟩, ⟨128, 128, 128⟩] := by
      simp [samples, samplePoints, sampleAt, imgGray]
    rw [hs]
    simp only [classifyBackground, meanDeviation, meanColor, brightnessOf]
    norm_num⟩

/-! ## Flood fill (remove-background script, floodFillBackground) -/

/-- In-bounds check of the fill (`x < 0 || x >= width || y < 0 || y >= height`
rejected); positions are integer pairs because the fill pushes neighbors
that may lie off-canvas. -/
def inBounds (w h : ℕ) (p : ℤ × ℤ) : Bool :=
  decide (0 ≤ p.1) && decide (p.1 < (w : ℤ)) &&
    decide (0 ≤ p.2) && decide (p.2 < (h : ℤ))

/-- The four neighbors, in the push order of the fill. -/
def nbrs (p : ℤ × ℤ) : List (ℤ × ℤ) :=
  [(p.1 + 1, p.2), (p.1 - 1, p.2), (p.1, p.2 + 1), (p.1, p.2 - 1)]

/-- One `fill(startX, startY)` BFS of `floodFillBackground`, generic in the
`isBackground` predicate it closes over: pop the front of the queue, skip
visited or out-of-bounds pixels, mark visited, and for background pixels
record them and push the four neighbors.  The source's `while` loop always
terminates; the fuel argument dominates its step count (each step either
shortens the queue or visits a new in-bounds pixel). -/
def fillLoop (w h : ℕ) (isBg : ℤ × ℤ → Bool) :
    ℕ → Finset (ℤ × ℤ) → Finset (ℤ × ℤ) → List (ℤ × ℤ) →
    Finset (ℤ × ℤ) × Finset (ℤ × ℤ)
  | 0, V, B, _ => (V, B)
  | _ + 1, V, B, [] => (V, B)
  | fuel + 1, V, B, p :: Q =>
    if p ∈ V then fillLoop w h isBg fuel V B Q
    else if !(inBounds w h p) then fillLoop w h isBg fuel V B Q
    else if isBg p then
      fillLoop w h isBg fuel (insert p V) (insert p B) (Q ++ nbrs p)
    else fillLoop w h isBg fuel (insert p V) B Q

/-- The seed points: the four corners, then every 10th pixel along the top
and bottom edges, then every 10th pixel along the left and right edges, in
the source's fill order. -/
def seedList (w h : ℕ) : List (ℤ × ℤ) :=
  [((0 : ℤ), (0 : ℤ)), ((w : ℤ) - 1, 0), (0, (h : ℤ) - 1),
    ((w : ℤ) - 1, (h : ℤ) - 1)] ++
  (List.range ((w + 9) / 10)).bind
    (fun k => [(((10 * k : ℕ) : ℤ), 0), (((10 * k : ℕ) : ℤ), (h : ℤ) - 1)]) ++
  (List.range ((h + 9) / 10)).bind
    (fun k => [((0 : ℤ), ((10 * k : ℕ) : ℤ)), ((w : ℤ) - 1, ((10 * k : ℕ) : ℤ))])

/-- The canvas as a finite set of positions. -/
def grid (w h : ℕ) : Finset (ℤ × ℤ) :=
  Finset.Ico (0 : ℤ) (w : ℤ) ×ˢ Finset.Ico (0 : ℤ) (h : ℤ)

theorem mem_grid (w h : ℕ) (p : ℤ × ℤ) :
    p ∈ grid w h ↔ inBounds w h p = true := by
  simp [grid, inBounds, Finset.mem_product, Finset.mem_Ico, and_assoc]

theorem grid_card (w h : ℕ) : (grid w h).card = w * h := by
  simp [grid, Finset.card_product, Int.card_Ico]

/-- Step bound for one BFS run. -/
def fillMeasure (w h : ℕ) (V : Finset (ℤ × ℤ)) (Q : List (ℤ × ℤ)) : ℕ :=
  5 * ((grid w h \ V).card) + Q.length

/-- A pixel the fill may traverse: in bounds and within tolerance. -/
def okPix (w h : ℕ) (isBg : ℤ × ℤ → Bool) (p : ℤ × ℤ) : Prop :=
  inBounds w h p = true ∧ isBg p = true

/-- Invariant tying the visited set and the background set of the fill. -/
structure FillInv (w h : ℕ) (isBg : ℤ × ℤ → Bool)
    (V B : Finset (ℤ × ℤ)) : Prop where
  boundsV : ∀ p ∈ V, inBounds w h p = true
  subBV : B ⊆ V
  marked : ∀ p ∈ V, isBg p = true → p ∈ B
  okB : ∀ p ∈ B, isBg p = true

theorem fillLoop_spec (w h : ℕ) (isBg : ℤ × ℤ → Bool) (Good : ℤ × ℤ → Prop)
    (hGC : ∀ a b, Good a → b ∈ nbrs a → okPix w h isBg b → Good b) :
    ∀ fuel V B Q, FillInv w h isBg V B →
      (∀ b ∈ B, ∀ q ∈ nbrs b, inBounds w h q = true → q ∈ V ∨ q ∈ Q) →
      (∀ q ∈ Q, okPix w h isBg q → Good q) →
      (∀ b ∈ B, Good b) →
      fillMeasure w h V Q ≤ fuel →
      FillInv w h isBg (fillLoop w h isBg fuel V B Q).1
        (fillLoop w h isBg fuel V B Q).2 ∧
      V ⊆ (fillLoop w h isBg fuel V B Q).1 ∧
      B ⊆ (fillLoop w h isBg fuel V B Q).2 ∧
      (∀ b ∈ (fillLoop w h isBg fuel V B Q).2, ∀ q ∈ nbrs b,
        inBounds w h q = true → q ∈ (fillLoop w h isBg fuel V B Q).1) ∧
      (∀ q ∈ Q, okPix w h isBg q → q ∈ (fillLoop w h isBg fuel V B Q).2) ∧
      (∀ b ∈ (fillLoop w h isBg fuel V B Q).2, Good b) := by
  intro fuel
  induction fuel with
  | zero =>
    intro V B Q hInv hQC hQG hBG hm
    have hQ : Q = [] := by
      unfold fillMeasure at hm
      exact List.length_eq_zero.mp (by omega)
    subst hQ
    simp only [fillLoop]
    refine ⟨hInv, Finset.Subset.refl _, Finset.Subset.refl _, ?_, ?_, hBG⟩
    · intro b hb q hq hqin
      rcases hQC b hb q hq hqin with hc | hc
      · exact hc
      · simp at hc
    · intro q hq; simp at hq
  | succ fuel ih =>
    intro V B Q hInv hQC hQG hBG hm
    cases Q with
    | nil =>
      simp only [fillLoop]
      refine ⟨hInv, Finset.Subset.refl _, Finset.Subset.refl _, ?_, ?_, hBG⟩
      · intro b hb q hq hqin
        rcases hQC b hb q hq hqin with hc | hc
        · exact hc
        · simp at hc
      · intro q hq; simp at hq
    | cons p Q =>
      by_cases hpV : p ∈ V
      · simp only [fillLoop, if_pos hpV]
        have hQC' : ∀ b ∈ B, ∀ q ∈ nbrs b, inBounds w h q = true →
            q ∈ V ∨ q ∈ Q := by
          intro b hb q hq hqin
          rcases hQC b hb q hq hqin with hc | hc
          · exact Or.inl hc
          · rcases List.mem_cons.mp hc with hc | hc
            · exact Or.inl (hc ▸ hpV)
            · exact Or.inr hc
        have hm' : fillMeasure w h V Q ≤ fuel := by
          unfold fillMeasure at hm ⊢
          simp only [List.length_cons] at hm
          omega
        obtain ⟨rInv, rV, rB, rC, rQ, rG⟩ := ih V B Q hInv hQC'
          (fun q hq => hQG q (List.mem_cons_of_mem _ hq)) hBG hm'
        refine ⟨rInv, rV, rB, rC, ?_, rG⟩
        intro q hq hok
        rcases List.mem_cons.mp hq with hc | hc
        · subst hc
          exact rInv.marked q (rV hpV) hok.2
        · exact rQ q hc hok
      · by_cases hpIn : inBounds w h p = true
        · by_cases hpBg : isBg p = true
          · have hnotb : ¬((!inBounds w h p) = true) := by simp [hpIn]
            simp only [fillLoop, if_neg hpV, if_neg hnotb, if_pos hpBg]
            have hpGood : Good p := hQG p (List.mem_cons_self _ _) ⟨hpIn, hpBg⟩
            have hInv' : FillInv w h isBg (insert p V) (insert p B) := by
              refine ⟨?_, ?_, ?_, ?_⟩
              · intro q hq
                rcases Finset.mem_insert.mp hq with hc | hc
                · exact hc ▸ hpIn
                · exact hInv.boundsV q hc
              · exact Finset.insert_subset_insert _ hInv.subBV
              · intro q hq hbg
                rcases Finset.mem_insert.mp hq with hc | hc
                · exact hc ▸ Finset.mem_insert_self _ _
                · exact Finset.mem_insert_of_mem (hInv.marked q hc hbg)
              · intro q hq
                rcases Finset.mem_insert.mp hq with hc | hc
                · exact hc ▸ hpBg
                · exact hInv.okB q hc
            have hQC' : ∀ b ∈ insert p B, ∀ q ∈ nbrs b,
                inBounds w h q = true → q ∈ insert p V ∨ q ∈ Q ++ nbrs p := by
              intro b hb q hq hqin
              rcases Finset.mem_insert.mp hb with hc | hc
              · subst hc
                exact Or.inr (List.mem_append_right _ hq)
              · rcases hQC b hc q hq hqin with h2 | h2
                · exact Or.inl (Finset.mem_insert_of_mem h2)
                · rcases List.mem_cons.mp h2 with h3 | h3
                  · exact Or.inl (h3 ▸ Finset.mem_insert_self _ _)
                  · exact Or.inr (List.mem_append_left _ h3)
            have hQG' : ∀ q ∈ Q ++ nbrs p, okPix w h isBg q → Good q := by
              intro q hq hok
              rcases List.mem_append.mp hq with hc | hc
              · exact hQG q (List.mem_cons_of_mem _ hc) hok
              · exact hGC p q hpGood hc hok
            have hBG' : ∀ b ∈ insert p B, Good b := by
              intro b hb
              rcases Finset.mem_insert.mp hb with hc | hc
              · exact hc ▸ hpGood
              · exact hBG b hc
            have hcard : ((grid w h \ insert p V).card) + 1 =
                (grid w h \ V).card := by
              rw [Finset.sdiff_insert]
              exact Finset.card_erase_add_one
                (Finset.mem_sdiff.mpr ⟨(mem_grid w h p).mpr hpIn, hpV⟩)
            have hm' : fillMeasure w h (insert p V) (Q ++ nbrs p) ≤ fuel := by
              unfold fillMeasure at hm ⊢
              simp only [List.length_cons, List.length_append] at hm ⊢
              have h4 : (nbrs p).length = 4 := rfl
              omega
            obtain ⟨rInv, rV, rB, rC, rQ, rG⟩ := ih (insert p V) (insert p B)
              (Q ++ nbrs p) hInv' hQC' hQG' hBG' hm'
            refine ⟨rInv, Finset.Subset.trans (Finset.subset_insert _ _) rV,
              Finset.Subset.trans (Finset.subset_insert _ _) rB, rC, ?_, rG⟩
            intro q hq hok
            rcases List.mem_cons.mp hq with hc | hc
            · exact hc ▸ rB (Finset.mem_insert_self _ _)
            · exact rQ q (List.mem_append_left _ hc) hok
          · have hnotb : ¬((!inBounds w h p) = true) := by simp [hpIn]
            simp only [fillLoop, if_neg hpV, if_neg hnotb, if_neg hpBg]
            have hInv' : FillInv w h isBg (insert p V) B := by
              refine ⟨?_, Finset.Subset.trans hInv.subBV
                (Finset.subset_insert _ _), ?_, hInv.okB⟩
              · intro q hq
                rcases Finset.mem_insert.mp hq with hc | hc
                · exact hc ▸ hpIn
                · exact hInv.boundsV q hc
              · intro q hq hbg
                rcases Finset.mem_insert.mp hq with hc | hc
                · exact absurd (hc ▸ hbg) hpBg
                · exact hInv.marked q hc hbg
            have hQC' : ∀ b ∈ B, ∀ q ∈ nbrs b, inBounds w h q = true →
                q ∈ insert p V ∨ q ∈ Q := by
              intro b hb q hq hqin
              rcases hQC b hb q hq hqin with hc | hc
              · exact Or.inl (Finset.mem_insert_of_mem hc)
              · rcases List.mem_cons.mp hc with hc | hc
                · exact Or.inl (hc ▸ Finset.mem_insert_self _ _)
                · exact Or.inr hc
            have hcard : ((grid w h \ insert p V).card) + 1 =
                (grid w h \ V).card := by
              rw [Finset.sdiff_insert]
              exact Finset.card_erase_add_one
                (Finset.mem_sdiff.mpr ⟨(mem_grid w h p).mpr hpIn, hpV⟩)
            have hm' : fillMeasure w h (insert p V) Q ≤ fuel := by
              unfold fillMeasure at hm ⊢
              simp only [List.length_cons] at hm
              omega
            obtain ⟨rInv, rV, rB, rC, rQ, rG⟩ := ih (insert p V) B Q hInv' hQC'
              (fun q hq => hQG q (List.mem_cons_of_mem _ hq)) hBG hm'
            refine ⟨rInv, Finset.Subset.trans (Finset.subset_insert _ _) rV,
              rB, rC, ?_, rG⟩
            intro q hq hok
            rcases List.mem_cons.mp hq with hc | hc
            · exact absurd (hc ▸ hok.2) hpBg
            · exact rQ q hc hok
        · have hnotb : (!inBounds w h p) = true := by
            simp [Bool.not_eq_true'] at hpIn ⊢
            exact hpIn
          simp only [fillLoop, if_neg hpV, if_pos hnotb]
          have hQC' : ∀ b ∈ B, ∀ q ∈ nbrs b, inBounds w h q = true →
              q ∈ V ∨ q ∈ Q := by
            intro b hb q hq hqin
            rcases hQC b hb q hq hqin with hc | hc
            · exact Or.inl hc
            · rcases List.mem_cons.mp hc with hc | hc
              · exact absurd (hc ▸ hqin) hpIn
              · exact Or.inr hc
          have hm' : fillMeasure w h V Q ≤ fuel := by
            unfold fillMeasure at hm ⊢
            simp only [List.length_cons] at hm
            omega
          obtain ⟨rInv, rV, rB, rC, rQ, rG⟩ := ih V B Q hInv hQC'
            (fun q hq => hQG q (List.mem_cons_of_mem _ hq)) hBG hm'
          refine ⟨rInv, rV, rB, rC, ?_, rG⟩
          intro q hq hok
          rcases List.mem_cons.mp hq with hc | hc
          · exact absurd (hc ▸ hok.1) hpIn
          · exact rQ q hc hok

/-- Reachability through background pixels: some seed is itself an
in-bounds background pixel and a 4-connected path of in-bounds background
pixels leads from it to `p`. -/
def ReachFrom (w h : ℕ) (isBg : ℤ × ℤ → Bool) (seeds : List (ℤ × ℤ))
    (p : ℤ × ℤ) : Prop :=
  ∃ s ∈ seeds, okPix w h isBg s ∧
    Relation.ReflTransGen (fun a b => b ∈ nbrs a ∧ okPix w h isBg b) s p

theorem foldFill_spec (w h : ℕ) (isBg : ℤ × ℤ → Bool) (Good : ℤ × ℤ → Prop)
    (hGC : ∀ a b, Good a → b ∈ nbrs a → okPix w h isBg b → Good b)
    (allSeeds : List (ℤ × ℤ))
    (hSeed : ∀ s ∈ allSeeds, okPix w h isBg s → Good s) :
    ∀ seeds : List (ℤ × ℤ), (∀ s ∈ seeds, s ∈ allSeeds) →
    ∀ V B : Finset (ℤ × ℤ),
      FillInv w h isBg V B →
      (∀ b ∈ B, ∀ q ∈ nbrs b, inBounds w h q = true → q ∈ V) →
      (∀ b ∈ B, Good b) →
      FillInv w h isBg
        (seeds.foldl (fun vb s =>
          fillLoop w h isBg (5 * (w * h) + 1) vb.1 vb.2 [s]) (V, B)).1
        (seeds.foldl (fun vb s =>
          fillLoop w h isBg (5 * (w * h) + 1) vb.1 vb.2 [s]) (V, B)).2 ∧
      (∀ b ∈ (seeds.foldl (fun vb s =>
          fillLoop w h isBg (5 * (w * h) + 1) vb.1 vb.2 [s]) (V, B)).2,
        ∀ q ∈ nbrs b, inBounds w h q = true →
          q ∈ (seeds.foldl (fun vb s =>
            fillLoop w h isBg (5 * (w * h) + 1) vb.1 vb.2 [s]) (V, B)).1) ∧
      (∀ b ∈ (seeds.foldl (fun vb s =>
          fillLoop w h isBg (5 * (w * h) + 1) vb.1 vb.2 [s]) (V, B)).2,
        Good b) ∧
      B ⊆ (seeds.foldl (fun vb s =>
        fillLoop w h isBg (5 * (w * h) + 1) vb.1 vb.2 [s]) (V, B)).2 ∧
      (∀ s ∈ seeds, okPix w h isBg s →
        s ∈ (seeds.foldl (fun vb s =>
          fillLoop w h isBg (5 * (w * h) + 1) vb.1 vb.2 [s]) (V, B)).2) := by
  intro seeds
  induction seeds with
  | nil =>
    intro hsub V B hInv hC hG
    simp only [List.foldl_nil]
    exact ⟨hInv, fun b hb q hq hqin => hC b hb q hq hqin, hG,
      Finset.Subset.refl _, by intro s hs; simp at hs⟩
  | cons s seeds ihs =>
    intro hsub V B hInv hC hG
    simp only [List.foldl_cons]
    have hm : fillMeasure w h V [s] ≤ 5 * (w * h) + 1 := by
      unfold fillMeasure
      have hle : (grid w h \ V).card ≤ w * h := by
        calc (grid w h \ V).card ≤ (grid w h).card :=
              Finset.card_le_card (Finset.sdiff_subset)
          _ = w * h := grid_card w h
      simp only [List.length_singleton]
      omega
    obtain ⟨rInv, rV, rB, rC, rQ, rG⟩ := fillLoop_spec w h isBg Good hGC
      (5 * (w * h) + 1) V B [s] hInv
      (fun b hb q hq hqin => Or.inl (hC b hb q hq hqin))
      (by
        intro q hq hok
        simp only [List.mem_singleton] at hq
        exact hSeed q (hq ▸ hsub s (List.mem_cons_self _ _)) (hq ▸ hok))
      hG hm
    obtain ⟨fInv, fC, fG, fB, fS⟩ := ihs
      (fun t ht => hsub t (List.mem_cons_of_mem _ ht))
      (fillLoop w h isBg (5 * (w * h) + 1) V B [s]).1
      (fillLoop w h isBg (5 * (w * h) + 1) V B [s]).2
      rInv rC rG
    refine ⟨fInv, fC, fG, Finset.Subset.trans rB fB, ?_⟩
    intro t ht hok
    rcases List.mem_cons.mp ht with hc | hc
    · exact fB (hc ▸ rQ t (by simp [hc]) hok)
    · exact fS t hc hok

theorem foldFill_mem_iff (w h : ℕ) (isBg : ℤ × ℤ → Bool) (p : ℤ × ℤ) :
    (p ∈ ((seedList w h).foldl (fun vb s =>
      fillLoop w h isBg (5 * (w * h) + 1) vb.1 vb.2 [s])
      ((∅ : Finset (ℤ × ℤ)), (∅ : Finset (ℤ × ℤ)))).2) ↔
    ReachFrom w h isBg (seedList w h) p := by
  have hGC : ∀ a b, ReachFrom w h isBg (seedList w h) a → b ∈ nbrs a →
      okPix w h isBg b → ReachFrom w h isBg (seedList w h) b := by
    rintro a b ⟨s, hs, hoks, hpath⟩ hb hok
    exact ⟨s, hs, hoks, hpath.tail ⟨hb, hok⟩⟩
  have hSeed : ∀ s ∈ seedList w h, okPix w h isBg s →
      ReachFrom w h isBg (seedList w h) s :=
    fun s hs hok => ⟨s, hs, hok, Relation.ReflTransGen.refl⟩
  obtain ⟨fInv, fC, fG, _, fS⟩ := foldFill_spec w h isBg
    (ReachFrom w h isBg (seedList w h)) hGC (seedList w h) hSeed
    (seedList w h) (fun s hs => hs) ∅ ∅
    ⟨by simp, Finset.Subset.refl _, by simp, by simp⟩
    (by simp) (by simp)
  constructor
  · exact fun hm => fG p hm
  · rintro ⟨s, hs, hok, hpath⟩
    have hsB := fS s hs hok
    clear fS
    induction hpath with
    | refl => exact hsB
    | tail hst hstep ih =>
      rename_i b c
      have hbB := ih
      have hcV := fC b hbB c hstep.1 hstep.2.1
      exact fInv.marked c hcV hstep.2.2

/-- Flat index of a pixel, `(y * width + x) * channels`. -/
def pixelIdx (img : Img) (p : ℤ × ℤ) : ℕ :=
  (p.2.toNat * img.width + p.1.toNat) * img.channels

/-- Predicate `isBackground` of the fill: per-channel absolute distance from the
detected background color within tolerance. -/
def isBackground (img : Img) (bg : RGBq) (tol : ℚ) (p : ℤ × ℤ) : Bool :=
  decide (|(img.data (pixelIdx img p) : ℚ) - bg.r| ≤ tol) &&
    decide (|(img.data (pixelIdx img p + 1) : ℚ) - bg.g| ≤ tol) &&
    decide (|(img.data (pixelIdx img p + 2) : ℚ) - bg.b| ≤ tol)

/-- Model of `floodFillBackground`: one BFS per seed, sharing the visited and
background sets across the corner and edge seeds. -/
def floodFillBackground (img : Img) (bg : RGBq) (tol : ℚ) :
    Finset (ℤ × ℤ) :=
  ((seedList img.width img.height).foldl
    (fun vb s => fillLoop img.width img.height (isBackground img bg tol)
      (5 * (img.width * img.height) + 1) vb.1 vb.2 [s])
    ((∅ : Finset (ℤ × ℤ)), (∅ : Finset (ℤ × ℤ)))).2

/-- A pixel is 4-connectedly reachable from the border seed points through
pixels within tolerance of the background color. -/
def ReachesBg (img : Img) (bg : RGBq) (tol : ℚ) (p : ℤ × ℤ) : Prop :=
  ReachFrom img.width img.height (isBackground img bg tol)
    (seedList img.width img.height) p

/-- One RGBA pixel of the output buffer. -/
structure RGBA where
  r : ℕ
  g : ℕ
  b : ℕ
  a : ℕ
  deriving DecidableEq

/-- The alpha-assignment loop of `removeBackground` (lines 260-282), per
pixel: background-marked pixels become fully transparent, every other
pixel keeps its original RGB at alpha 255. -/
def removeBgPixel (img : Img) (bgSet : Finset (ℤ × ℤ)) (x y : ℕ) : RGBA :=
  if ((x : ℤ), (y : ℤ)) ∈ bgSet then ⟨0, 0, 0, 0⟩
  else ⟨img.data ((y * img.width + x) * img.channels),
    img.data ((y * img.width + x) * img.channels + 1),
    img.data ((y * img.width + x) * img.channels + 2), 255⟩

theorem floodFill_mem_iff (img : Img) (bg : RGBq) (tol : ℚ) (p : ℤ × ℤ) :
    p ∈ floodFillBackground img bg tol ↔ ReachesBg img bg tol p :=
  foldFill_mem_iff img.width img.height (isBackground img bg tol) p

/-- C2: for every bitmap, detected background color and tolerance, the
alpha assignment makes fully transparent exactly the pixels 4-connectedly
reachable from the border seed points through pixels within tolerance of
the background color; every other pixel — interior background-colored
regions not reachable from any edge included — keeps alpha 255 and its
original RGB bytes. -/
theorem segmentation_edge_reachability (img : Img) (bg : RGBq) (tol : ℚ)
    (x y : ℕ) (hx : x < img.width) (hy : y < img.height) :
    ((removeBgPixel img (floodFillBackground img bg tol) x y).a = 0 ↔
      ReachesBg img bg tol ((x : ℤ), (y : ℤ))) ∧
    (¬ ReachesBg img bg tol ((x : ℤ), (y : ℤ)) →
      removeBgPixel img (floodFillBackground img bg tol) x y =
        ⟨img.data ((y * img.width + x) * img.channels),
         img.data ((y * img.width + x) * img.channels + 1),
         img.data ((y * img.width + x) * img.channels + 2), 255⟩) := by
  have hmem := floodFill_mem_iff img bg tol ((x : ℤ), (y : ℤ))
  constructor
  · by_cases hb : ((x : ℤ), (y : ℤ)) ∈ floodFillBackground img bg tol
    · rw [removeBgPixel, if_pos hb]
      exact ⟨fun _ => hmem.mp hb, fun _ => rfl⟩
    · rw [removeBgPixel, if_neg hb]
      exact ⟨fun ha => absurd ha (by simp), fun hr => absurd (hmem.mpr hr) hb⟩
  · intro hnr
    rw [removeBgPixel, if_neg (fun hb => hnr (hmem.mp hb))]

/-- Witness for `segmentation_edge_reachability` at pixel (1, 1) of the
uniform gray 12 x 12 bitmap. -/
theorem segmentation_edge_reachability_witness :
    (1 < imgGray.width ∧ 1 < imgGray.height) ∧
    (((removeBgPixel imgGray
        (floodFillBackground imgGray ⟨255, 255, 255⟩ 45) 1 1).a = 0 ↔
      ReachesBg imgGray ⟨255, 255, 255⟩ 45 ((1 : ℤ), (1 : ℤ))) ∧
    (¬ ReachesBg imgGray ⟨255, 255, 255⟩ 45 ((1 : ℤ), (1 : ℤ)) →
      removeBgPixel imgGray (floodFillBackground imgGray ⟨255, 255, 255⟩ 45)
          1 1 =
        ⟨imgGray.data ((1 * imgGray.width + 1) * imgGray.channels),
         imgGray.data ((1 * imgGray.width + 1) * imgGray.channels + 1),
         imgGray.data ((1 * imgGray.width + 1) * imgGray.channels + 2),
         255⟩)) :=
  ⟨⟨by decide, by decide⟩,
   segmentation_edge_reachability imgGray ⟨255, 255, 255⟩ 45 1 1
     (by decide) (by decide)⟩

theorem floodFill_sound (img : Img) (bg : RGBq) (tol : ℚ) (p : ℤ × ℤ)
    (hp : p ∈ floodFillBackground img bg tol) :
    inBounds img.width img.height p = true ∧
    isBackground img bg tol p = true := by
  obtain ⟨fInv, _, _, _, _⟩ := foldFill_spec img.width img.height
    (isBackground img bg tol) (fun _ => True) (fun _ _ _ _ _ => trivial)
    (seedList img.width img.height) (fun _ _ _ => trivial)
    (seedList img.width img.height) (fun s hs => hs) ∅ ∅
    ⟨by simp, Finset.Subset.refl _, by simp, by simp⟩ (by simp) (by simp)
  exact ⟨fInv.boundsV p (fInv.subBV hp), fInv.okB p hp⟩

/-- C10: every pixel the flood-fill alpha assignment makes transparent has
each RGB channel within the tolerance of the corresponding channel of the
detected background color; no pixel outside that per-channel tolerance is
ever made transparent. -/
theorem segmentation_tolerance_sound (img : Img) (bg : RGBq) (tol : ℚ)
    (x y : ℕ)
    (h0 : (removeBgPixel img (floodFillBackground img bg tol) x y).a = 0) :
    |(img.data ((y * img.width + x) * img.channels) : ℚ) - bg.r| ≤ tol ∧
    |(img.data ((y * img.width + x) * img.channels + 1) : ℚ) - bg.g| ≤ tol ∧
    |(img.data ((y * img.width + x) * img.channels + 2) : ℚ) - bg.b| ≤ tol := by
  have hb : ((x : ℤ), (y : ℤ)) ∈ floodFillBackground img bg tol := by
    by_contra hnb
    rw [removeBgPixel, if_neg hnb] at h0
    exact absurd h0 (by simp)
  have hs := (floodFill_sound img bg tol _ hb).2
  have hidx : pixelIdx img ((x : ℤ), (y : ℤ)) =
      (y * img.width + x) * img.channels := by
    simp [pixelIdx]
  rw [isBackground, hidx, Bool.and_eq_true, Bool.and_eq_true] at hs
  exact ⟨of_decide_eq_true hs.1.1, of_decide_eq_true hs.1.2,
    of_decide_eq_true hs.2⟩

/-- A 1 x 1 all-white 3-channel bitmap. -/
def imgOne : Img := ⟨1, 1, 3, fun _ => 255⟩

/-- The white background color as the detector would report it on
`imgOne`. -/
def bgWhite : RGBq := ⟨255, 255, 255⟩

theorem imgOne_isBackground :
    isBackground imgOne bgWhite 45 = fun _ => true := by
  funext p
  simp only [isBackground, imgOne, bgWhite]
  norm_num

theorem imgOne_alpha_zero :
    (removeBgPixel imgOne (floodFillBackground imgOne bgWhite 45) 0 0).a
      = 0 := by
  rw [removeBgPixel]
  rw [if_pos]
  rw [floodFillBackground, imgOne_isBackground]
  decide

/-- Witness for `segmentation_tolerance_sound` at the single pixel of the
all-white bitmap, whose alpha-zero hypothesis is discharged by running the
fill. -/
theorem segmentation_tolerance_sound_witness :
    (removeBgPixel imgOne (floodFillBackground imgOne bgWhite 45) 0 0).a
        = 0 ∧
    (|(imgOne.data ((0 * imgOne.width + 0) * imgOne.channels) : ℚ) -
        bgWhite.r| ≤ 45 ∧
      |(imgOne.data ((0 * imgOne.width + 0) * imgOne.channels + 1) : ℚ) -
        bgWhite.g| ≤ 45 ∧
      |(imgOne.data ((0 * imgOne.width + 0) * imgOne.channels + 2) : ℚ) -
        bgWhite.b| ≤ 45) :=
  ⟨imgOne_alpha_zero,
   segmentation_tolerance_sound imgOne bgWhite 45 0 0 imgOne_alpha_zero⟩

/-! ## Edge smoothing (remove-background script, smoothEdges) -/

/-- The interior pixels `smoothEdges` visits, row by row: `y` from 1 to
`height - 2`, `x` from 1 to `width - 2`. -/
def interiorPositions (w h : ℕ) : List (ℕ × ℕ) :=
  (List.range (h - 2)).bind
    (fun y => (List.range (w - 2)).map (fun x => (x + 1, y + 1)))

/-- The pre-smoothing alpha copy `tempAlpha`: alpha byte of each pixel of
the RGBA buffer. -/
def tempAlphaOf (out : ℕ → ℕ) : ℕ → ℕ := fun i => out (i * 4 + 3)

/-- The four neighbor alphas read by `smoothEdges`, in source order. -/
def neighborAlphas (w : ℕ) (temp : ℕ → ℕ) (idx : ℕ) : List ℕ :=
  [temp (idx - 1), temp (idx + 1), temp (idx - w), temp (idx + w)]

/-- The body of `smoothEdges` for one visited pixel: a fully opaque pixel
with a fully transparent neighbor gets alpha
`max (round ((alpha + avgNeighborAlpha) / 2)) 200` written into the output
buffer; `(4 * alpha + sum + 4) / 8` is exactly JavaScript's
`Math.round((alpha + sum / 4) / 2)` on naturals. -/
def smoothStep (w : ℕ) (temp : ℕ → ℕ) (out : ℕ → ℕ) (p : ℕ × ℕ) :
    ℕ → ℕ :=
  if temp (p.2 * w + p.1) = 255 then
    if (neighborAlphas w temp (p.2 * w + p.1)).any (· == 0) then
      Function.update out ((p.2 * w + p.1) * 4 + 3)
        (max ((4 * temp (p.2 * w + p.1) +
          (neighborAlphas w temp (p.2 * w + p.1)).sum + 4) / 8) 200)
    else out
  else out

/-- Model of `smoothEdges`: copy the alpha plane, then rewrite the alpha of each
qualifying interior pixel in place, reading only from the copy. -/
def smoothEdges (w h : ℕ) (out : ℕ → ℕ) : ℕ → ℕ :=
  (interiorPositions w h).foldl (smoothStep w (tempAlphaOf out)) out

theorem smoothStep_apply_ne (w : ℕ) (temp out : ℕ → ℕ) (p : ℕ × ℕ) (j : ℕ)
    (hj : (p.2 * w + p.1) * 4 + 3 ≠ j) :
    smoothStep w temp out p j = out j := by
  unfold smoothStep
  split_ifs <;> simp [Function.update_noteq (Ne.symm hj)]

theorem foldl_smoothStep_notin (w : ℕ) (temp : ℕ → ℕ) (j : ℕ) :
    ∀ L : List (ℕ × ℕ), ∀ out : ℕ → ℕ,
      (∀ p ∈ L, (p.2 * w + p.1) * 4 + 3 ≠ j) →
      L.foldl (smoothStep w temp) out j = out j := by
  intro L
  induction L with
  | nil => intro out _; rfl
  | cons q L ihs =>
    intro out hL
    simp only [List.foldl_cons]
    rw [ihs _ (fun p hp => hL p (List.mem_cons_of_mem _ hp))]
    exact smoothStep_apply_ne w temp out q j (hL q (List.mem_cons_self _ _))

theorem pixel_index_inj (w x y x' y' : ℕ) (hx : x < w) (hx' : x' < w)
    (hne : (x, y) ≠ ((x' : ℕ), (y' : ℕ))) :
    (y * w + x) * 4 + 3 ≠ (y' * w + x') * 4 + 3 := by
  intro he
  have h1 : y * w + x = y' * w + x' := by omega
  have hxx : x = x' := by
    have := congrArg (fun n => n % w) h1
    simpa [Nat.add_mul_mod_self_left, Nat.mod_eq_of_lt hx,
      Nat.mod_eq_of_lt hx', Nat.mul_add_mod, Nat.add_comm] using this
  have hyy : y = y' := by
    subst hxx
    have hw : 0 < w := Nat.pos_of_ne_zero (by omega)
    have := Nat.eq_of_mul_eq_mul_right hw (by omega : y * w = y' * w)
    exact this
  exact hne (by rw [hxx, hyy])

theorem foldl_smoothStep_at (w : ℕ) (temp : ℕ → ℕ) (x y : ℕ) (hx : x < w) :
    ∀ L : List (ℕ × ℕ), ∀ out : ℕ → ℕ, (∀ p ∈ L, p.1 < w) →
      L.foldl (smoothStep w temp) out ((y * w + x) * 4 + 3) =
        if (x, y) ∈ L ∧ temp (y * w + x) = 255 ∧
            (neighborAlphas w temp (y * w + x)).any (· == 0) = true then
          max ((4 * temp (y * w + x) +
            (neighborAlphas w temp (y * w + x)).sum + 4) / 8) 200
        else out ((y * w + x) * 4 + 3) := by
  intro L
  induction L with
  | nil =>
    intro out _
    simp
  | cons q L ihs =>
    intro out hL
    simp only [List.foldl_cons]
    by_cases hq : q = (x, y)
    · subst hq
      by_cases h255 : temp (y * w + x) = 255
      · by_cases hany :
            (neighborAlphas w temp (y * w + x)).any (· == 0) = true
        · rw [if_pos ⟨List.mem_cons_self _ _, h255, hany⟩]
          rw [ihs _ (fun p hp => hL p (List.mem_cons_of_mem _ hp))]
          have hupd : smoothStep w temp out (x, y) ((y * w + x) * 4 + 3) =
              max ((4 * temp (y * w + x) +
                (neighborAlphas w temp (y * w + x)).sum + 4) / 8) 200 := by
            unfold smoothStep
            simp only [h255, hany, if_true]
            exact Function.update_same _ _ _
          by_cases hmem : ((x, y) ∈ L ∧ temp (y * w + x) = 255 ∧
              (neighborAlphas w temp (y * w + x)).any (· == 0) = true)
          · rw [if_pos hmem]
          · rw [if_neg hmem]
            exact hupd
        · have hid : smoothStep w temp out (x, y) = out := by
            unfold smoothStep
            simp [h255, hany]
          rw [hid, ihs _ (fun p hp => hL p (List.mem_cons_of_mem _ hp))]
          have hcellne : ¬ ((x, y) ∈ (x, y) :: L ∧
              temp (y * w + x) = 255 ∧
              (neighborAlphas w temp (y * w + x)).any (· == 0) = true) := by
            rintro ⟨_, _, hc⟩
            exact hany hc
          rw [if_neg hcellne]
          by_cases hmem : ((x, y) ∈ L ∧ temp (y * w + x) = 255 ∧
              (neighborAlphas w temp (y * w + x)).any (· == 0) = true)
          · exact absurd hmem.2.2 hany
          · rw [if_neg hmem]
      · have hid : smoothStep w temp out (x, y) = out := by
          unfold smoothStep
          simp [h255]
        rw [hid, ihs _ (fun p hp => hL p (List.mem_cons_of_mem _ hp))]
        have hcellne : ¬ ((x, y) ∈ (x, y) :: L ∧
            temp (y * w + x) = 255 ∧
            (neighborAlphas w temp (y * w + x)).any (· == 0) = true) := by
          rintro ⟨_, hc, _⟩
          exact h255 hc
        rw [if_neg hcellne]
        by_cases hmem : ((x, y) ∈ L ∧ temp (y * w + x) = 255 ∧
            (neighborAlphas w temp (y * w + x)).any (· == 0) = true)
        · exact absurd hmem.2.1 h255
        · rw [if_neg hmem]
    · have hstep : smoothStep w temp out q ((y * w + x) * 4 + 3) =
          out ((y * w + x) * 4 + 3) :=
        smoothStep_apply_ne w temp out q _
          (pixel_index_inj w q.1 q.2 x y
            (hL q (List.mem_cons_self _ _)) hx
            (by simpa using fun hc => hq (by
              obtain ⟨q1, q2⟩ := q
              simp at hc
              simp [hc.1, hc.2])))
      rw [ihs _ (fun p hp => hL p (List.mem_cons_of_mem _ hp))]
      by_cases hmem : ((x, y) ∈ L ∧ temp (y * w + x) = 255 ∧
          (neighborAlphas w temp (y * w + x)).any (· == 0) = true)
      · rw [if_pos hmem, if_pos ⟨List.mem_cons_of_mem _ hmem.1, hmem.2⟩]
      · rw [if_neg hmem, hstep]
        have hmem' : ¬ ((x, y) ∈ q :: L ∧ temp (y * w + x) = 255 ∧
            (neighborAlphas w temp (y * w + x)).any (· == 0) = true) := by
          rintro ⟨hin, hrest⟩
          rcases List.mem_cons.mp hin with hc | hc
          · exact hq hc.symm
          · exact hmem ⟨hc, hrest⟩
        rw [if_neg hmem']

theorem mem_interiorPositions (w h x y : ℕ) :
    (x, y) ∈ interiorPositions w h ↔
      1 ≤ x ∧ x + 1 < w ∧ 1 ≤ y ∧ y + 1 < h := by
  simp only [interiorPositions, List.mem_bind, List.mem_map, List.mem_range,
    Prod.mk.injEq]
  constructor
  · rintro ⟨y', hy', x', hx', rfl, rfl⟩
    omega
  · rintro ⟨hx1, hxw, hy1, hyh⟩
    exact ⟨y - 1, by omega, x - 1, by omega, by omega, by omega⟩

theorem interiorPositions_fst_lt (w h : ℕ) :
    ∀ p ∈ interiorPositions w h, p.1 < w := by
  intro p hp
  obtain ⟨x, y⟩ := p
  have := (mem_interiorPositions w h x y).mp hp
  omega

/-- C8 amended: edge anti-aliasing recomputes the alpha of exactly the
interior pixels (not in the first or last row or column) that are fully
opaque with at least one 4-connected neighbor at alpha 0 in the
pre-smoothing state; the new alpha is
`max (round ((alpha + average of the four pre-smoothing neighbor alphas) / 2)) 200`;
every other byte of the buffer — the alpha of border pixels and of
non-qualifying pixels, and all RGB bytes — is unchanged. -/
theorem smooth_edges_spec (w h : ℕ) (out : ℕ → ℕ) (x y : ℕ) (hx : x < w)
    (hy : y < h) :
    (smoothEdges w h out ((y * w + x) * 4 + 3) =
      if (1 ≤ x ∧ x + 1 < w ∧ 1 ≤ y ∧ y + 1 < h) ∧
          tempAlphaOf out (y * w + x) = 255 ∧
          (neighborAlphas w (tempAlphaOf out) (y * w + x)).any (· == 0)
            = true then
        max ((4 * tempAlphaOf out (y * w + x) +
          (neighborAlphas w (tempAlphaOf out) (y * w + x)).sum + 4) / 8) 200
      else out ((y * w + x) * 4 + 3)) ∧
    (∀ i, i % 4 ≠ 3 → smoothEdges w h out i = out i) := by
  constructor
  · rw [smoothEdges, foldl_smoothStep_at w (tempAlphaOf out) x y hx _ out
      (interiorPositions_fst_lt w h)]
    by_cases hmem : ((x, y) ∈ interiorPositions w h ∧
        tempAlphaOf out (y * w + x) = 255 ∧
        (neighborAlphas w (tempAlphaOf out) (y * w + x)).any (· == 0) = true)
    · rw [if_pos hmem, if_pos
        ⟨(mem_interiorPositions w h x y).mp hmem.1, hmem.2⟩]
    · rw [if_neg hmem, if_neg (fun hc =>
        hmem ⟨(mem_interiorPositions w h x y).mpr hc.1, hc.2⟩)]
  · intro i hi
    rw [smoothEdges, foldl_smoothStep_notin]
    intro p hp
    omega

/-- The 3 x 3 RGBA buffer whose alphas are 255 everywhere except a fully
transparent center pixel (the RGB bytes are arbitrary). -/
def outRing : ℕ → ℕ := fun i =>
  if i = (1 * 3 + 1) * 4 + 3 then 0 else if i % 4 = 3 then 255 else 7

/-- Stated from the claim's words, for comparison with the source: for any
fully opaque pixel with at least one in-bounds 4-connected neighbor at
alpha 0, replace its alpha by the clamped average of its own alpha and its
neighbors' alphas; others keep their alpha. -/
def smoothAlphaSpec (w h : ℕ) (alpha : ℕ → ℕ → ℕ) (x y : ℕ) : ℕ :=
  let ns := (([((x : ℤ) + 1, (y : ℤ)), ((x : ℤ) - 1, (y : ℤ)),
      ((x : ℤ), (y : ℤ) + 1), ((x : ℤ), (y : ℤ) - 1)].filter
      (fun p => inBounds w h p)).map
      (fun p => alpha p.1.toNat p.2.toNat))
  if alpha x y = 255 ∧ 0 ∈ ns then
    max ((ns.length * alpha x y + ns.sum + ns.length) / (2 * ns.length)) 200
  else alpha x y

/-- C8 counterexample: in the 3 x 3 ring buffer, the border pixel (1, 0) is
fully opaque with its transparent neighbor (1, 1) below it, yet
`smoothEdges` leaves its alpha at 255 because the loops only visit interior
pixels, while the claim's recomputation would lower it to 213. -/
theorem smooth_border_counterexample :
    smoothEdges 3 3 outRing ((0 * 3 + 1) * 4 + 3) = 255 ∧
    outRing ((0 * 3 + 1) * 4 + 3) = 255 ∧
    outRing ((1 * 3 + 1) * 4 + 3) = 0 ∧
    smoothAlphaSpec 3 3 (fun x y => outRing ((y * 3 + x) * 4 + 3)) 1 0
      = 213 := by
  refine ⟨?_, by decide, by decide, by decide⟩
  decide

/-- Witness for `smooth_edges_spec` at the center pixel of the ring
buffer. -/
theorem smooth_edges_spec_witness :
    (1 < 3 ∧ 1 < 3) ∧
    ((smoothEdges 3 3 outRing ((1 * 3 + 1) * 4 + 3) =
        if (1 ≤ 1 ∧ 1 + 1 < 3 ∧ 1 ≤ 1 ∧ 1 + 1 < 3) ∧
            tempAlphaOf outRing (1 * 3 + 1) = 255 ∧
            (neighborAlphas 3 (tempAlphaOf outRing) (1 * 3 + 1)).any (· == 0)
              = true then
          max ((4 * tempAlphaOf outRing (1 * 3 + 1) +
            (neighborAlphas 3 (tempAlphaOf outRing) (1 * 3 + 1)).sum + 4) / 8)
            200
        else outRing ((1 * 3 + 1) * 4 + 3)) ∧
      (∀ i, i % 4 ≠ 3 → smoothEdges 3 3 outRing i = outRing i)) :=
  ⟨⟨by decide, by decide⟩, smooth_edges_spec 3 3 outRing 1 1
    (by decide) (by decide)⟩
